import Mathlib

/-!
Verification of the weechat command parser (`src/lib.rs`) against its
natural-language specification.  The Rust library is shallowly embedded:
schemas (`Command`), parse results (`ParsedCommand`), the recursive matcher
(`parseFrom` / `parseSubs`), and the string entry point (`parse`) are
translated directly from the source.
-/


namespace Weechat

/-- `ArgRule { name, required }` from the source: one declared positional slot. -/
structure ArgRule where
  name : String
  required : Bool
deriving DecidableEq, Repr

/-- `enum Error { RequiredArgMissing(String) }` from the source. -/
inductive Error where
  | RequiredArgMissing (arg : String)
deriving DecidableEq, Repr

/-- `ParsedArg { name, value }` from the source: one bound positional pair. -/
structure ParsedArg where
  name : String
  value : String
deriving DecidableEq, Repr

/-- `struct Command { name, flags, args, subcommands }` from the source.
The Rust `HashSet<String>` of flags is modelled as a `List String` used only
through membership, with idempotent insertion in the builder. -/
inductive Command where
  | mk (name : String) (flags : List String) (args : List ArgRule)
      (subcommands : List Command)

/-- `struct ParsedCommand { command, flags, args, subcommand_match }` from the
source. -/
inductive ParsedCommand where
  | mk (command : String) (flags : List String) (args : List ParsedArg)
      (subcommandMatch : Option (String × ParsedCommand))

def Command.name : Command → String
  | .mk n _ _ _ => n

def Command.flags : Command → List String
  | .mk _ f _ _ => f

def Command.args : Command → List ArgRule
  | .mk _ _ a _ => a

def Command.subcommands : Command → List Command
  | .mk _ _ _ s => s

/-- `Command::new(name)`. -/
def Command.new (n : String) : Command := .mk n [] [] []

/-- `Command::flag(flag)`: `HashSet::insert`, idempotent. -/
def Command.flag : Command → String → Command
  | .mk n f a s, fl => .mk n (if f.contains fl then f else f ++ [fl]) a s

/-- `Command::flags(flags)`: `HashSet::extend`, i.e. repeated insertion. -/
def Command.addFlags : Command → List String → Command
  | c, [] => c
  | c, fl :: rest => (c.flag fl).addFlags rest

/-- `Command::arg(name, required)`: appends one `ArgRule`. -/
def Command.arg : Command → String → Bool → Command
  | .mk n f a s, nm, req => .mk n f (a ++ [⟨nm, req⟩]) s

/-- `Command::subcommand(subcommand)`: appends one child schema. -/
def Command.subcommand : Command → Command → Command
  | .mk n f a s, sc => .mk n f a (s ++ [sc])

def ParsedCommand.command : ParsedCommand → String
  | .mk c _ _ _ => c

def ParsedCommand.flags : ParsedCommand → List String
  | .mk _ f _ _ => f

def ParsedCommand.args : ParsedCommand → List ParsedArg
  | .mk _ _ a _ => a

def ParsedCommand.subcommandMatch : ParsedCommand → Option (String × ParsedCommand)
  | .mk _ _ _ m => m

/-- `ParsedCommand::has_flag(flag)`. -/
def ParsedCommand.hasFlag (p : ParsedCommand) (fl : String) : Bool :=
  p.flags.contains fl

/-- `ParsedCommand::arg(name)`. -/
def ParsedCommand.lookupArg (p : ParsedCommand) (nm : String) : Option String :=
  (p.args.find? fun a => a.name == nm).map ParsedArg.value

/-- `ParsedCommand::args()`: the bound values in order. -/
def ParsedCommand.argValues (p : ParsedCommand) : List String :=
  p.args.map ParsedArg.value

/-- `ParsedCommand::subcommand()`. -/
def ParsedCommand.getSubcommand (p : ParsedCommand) : Option (String × ParsedCommand) :=
  p.subcommandMatch

/-- The command-name stripping step of `parse_from`:
`if args.get(0) == Some(&self.name) { args.remove(0); }`. -/
def stripName (nm : String) : List String → List String
  | [] => []
  | t :: rest => if t = nm then rest else t :: rest

/-- The positional-binding loop of `parse_from`: zip the rules against the
remaining tokens padded with `None`; a required rule with no token aborts
with `RequiredArgMissing`, an optional one is skipped. -/
def bindArgs : List ArgRule → List String → Except Error (List ParsedArg)
  | [], _ => .ok []
  | r :: rs, [] =>
      if r.required then .error (.RequiredArgMissing r.name)
      else bindArgs rs []
  | r :: rs, t :: ts =>
      match bindArgs rs ts with
      | .error e => .error e
      | .ok rest => .ok (⟨r.name, t⟩ :: rest)

mutual

/-- `Command::parse_from`: strip the command name, run the subcommand loop,
consume the contiguous flag prefix, then bind positionals. -/
def parseFrom : Command → List String → Except Error ParsedCommand
  | .mk nm fl rules subs, tokens =>
    let args := stripName nm tokens
    match parseSubs subs args none with
    | .error e => .error e
    | .ok m =>
      match bindArgs rules (args.dropWhile fun t => fl.contains t) with
      | .error e => .error e
      | .ok l => .ok (.mk nm (args.takeWhile fun t => fl.contains t) l m)

/-- The subcommand loop of `parse_from`: for every child whose name equals the
first remaining token, recursively parse the tail and overwrite the match. -/
def parseSubs : List Command → List String → Option (String × ParsedCommand) →
    Except Error (Option (String × ParsedCommand))
  | [], _, acc => .ok acc
  | _ :: rest, [], acc => parseSubs rest [] acc
  | sc :: rest, t :: ts, acc =>
    if t = sc.name then
      match parseFrom sc ts with
      | .error e => .error e
      | .ok r => parseSubs rest (t :: ts) (some (sc.name, r))
    else parseSubs rest (t :: ts) acc

end

/-- The semantics of Rust's `str::split(sep)` for a single separator char:
split at every occurrence of the separator, keeping empty pieces, so the
empty input yields one empty piece and `n` separators yield `n + 1` pieces. -/
def splitChars (sep : Char) : List Char → List (List Char)
  | [] => [[]]
  | c :: cs =>
    if c = sep then [] :: splitChars sep cs
    else
      match splitChars sep cs with
      | [] => [[c]]
      | g :: gs => (c :: g) :: gs

/-- `Command::parse(input)`: split the input on single space characters
(`input.split(' ')`) and delegate to `parse_from`. -/
def parse (c : Command) (input : String) : Except Error ParsedCommand :=
  parseFrom c ((splitChars ' ' input.toList).map fun g => String.mk g)

/-- The name of the first required rule that would be left without a token
when only `n` tokens remain for positional binding. -/
def firstUnfillable : List ArgRule → Nat → Option String
  | [], _ => none
  | r :: rs, 0 => if r.required then some r.name else firstUnfillable rs 0
  | _ :: rs, n + 1 => firstUnfillable rs n

/-- The children of the subcommand list whose name equals the first remaining
token, in declaration order. -/
def matching (subs : List Command) (args : List String) : List Command :=
  subs.filter fun sc => args.head? == some sc.name

mutual

/-- Every `ArgRule` of the schema tree, at every depth, is optional. -/
def allOptional : Command → Bool
  | .mk _ _ rules subs => (rules.all fun r => !r.required) && allOptionalList subs

def allOptionalList : List Command → Bool
  | [] => true
  | c :: rest => allOptional c && allOptionalList rest

end

/-- The result invariant: the recorded flags are declared flags of the schema,
no more positionals are bound than rules were declared, and any recorded
subcommand result satisfies the same invariant against a child schema whose
name is the recorded one. -/
def ResultInv : Command → ParsedCommand → Bool
  | c, .mk _ fl pargs sub =>
    (fl.all fun t => c.flags.contains t) &&
    (decide (pargs.length ≤ c.args.length)) &&
    (match sub with
     | none => true
     | some (nm, child) =>
       c.subcommands.any fun sc => sc.name == nm && ResultInv sc child)

/-- Schema of the C1 counterexample: a required rule `a` plus a child `sub`. -/
def C1cexCmd : Command := ((Command.new "r").arg "a" true).subcommand (Command.new "sub")

/-- Schema of the C1 witness: a single required rule. -/
def C1wCmd : Command := (Command.new "m").arg "a" true

/-- First child of the C2 counterexample schema, with one optional rule. -/
def C2cexChild : Command := (Command.new "s").arg "x" false

/-- Schema of the C2 counterexample: two children both named `s`. -/
def C2cexCmd : Command := ((Command.new "r").subcommand C2cexChild).subcommand (Command.new "s")

/-- Schema of the C2 witness: one child `go` with an optional rule. -/
def C2wCmd : Command := (Command.new "root").subcommand ((Command.new "go").arg "v" false)

/-- Schema of the C3 witness: the smoke-test schema of the source. -/
def C3wCmd : Command :=
  (((((Command.new "/hello").flag "-foo").arg "one" true).arg "two" true).arg "three" true).arg "four" true

/-- Schema of the C4 witness: a child `s` with a required rule `x`. -/
def C4wCmd : Command := (Command.new "p").subcommand ((Command.new "s").arg "x" true)

/-- Schema of the C5 counterexample and witness: name `n`, required rule `a`. -/
def C5cexCmd : Command := (Command.new "n").arg "a" true

/-- Schema of the C6 witness: a single optional rule. -/
def C6wCmd : Command := (Command.new "w").arg "o" false

/-- Schema of the C7 witness: one optional rule. -/
def C7wCmd : Command := (Command.new "h").arg "p" false

/-- Schema of the C8 counterexample: the empty string declared as a flag. -/
def C8cexCmd : Command := ((Command.new "x").flag "").arg "a" true

/-- Schema of the C8 witness and amended instance: three optional rules. -/
def C8wCmd : Command := (((Command.new "y").arg "p" false).arg "q" false).arg "w" false

/-- Schema of the C9 counterexample: two required rules. -/
def C9cexCmd : Command := ((Command.new "/x").arg "a" true).arg "b" true

/-- Schema of the C9 witness: a required rule then an optional one. -/
def C9wCmd : Command := ((Command.new "/x").arg "a" true).arg "b" false

/-- Child schema of the C10 witness. -/
def C10wChild : Command := (Command.new "c").flag "-f"

/-- Schema of the C10 witness: one child with a flag. -/
def C10wCmd : Command := (Command.new "p").subcommand C10wChild


theorem parseFrom_eq (c : Command) (ts : List String) :
    parseFrom c ts =
      match parseSubs c.subcommands (stripName c.name ts) none with
      | .error e => .error e
      | .ok m =>
        match bindArgs c.args ((stripName c.name ts).dropWhile fun t => c.flags.contains t) with
        | .error e => .error e
        | .ok l =>
            .ok (.mk c.name ((stripName c.name ts).takeWhile fun t => c.flags.contains t) l m) := by
  cases c
  rfl

theorem parseFrom_ok_parts {c : Command} {ts : List String} {r : ParsedCommand}
    (h : parseFrom c ts = .ok r) :
    ∃ m l, parseSubs c.subcommands (stripName c.name ts) none = .ok m ∧
      bindArgs c.args ((stripName c.name ts).dropWhile fun t => c.flags.contains t) = .ok l ∧
      r = .mk c.name ((stripName c.name ts).takeWhile fun t => c.flags.contains t) l m := by
  rw [parseFrom_eq] at h
  cases hs : parseSubs c.subcommands (stripName c.name ts) none with
  | error e => rw [hs] at h; exact absurd h (by simp)
  | ok m =>
    rw [hs] at h
    cases hb : bindArgs c.args ((stripName c.name ts).dropWhile fun t => c.flags.contains t) with
    | error e => rw [hb] at h; exact absurd h (by simp)
    | ok l =>
      rw [hb] at h
      simp only [Except.ok.injEq] at h
      exact ⟨m, l, rfl, rfl, h.symm⟩

theorem bindArgs_ok_eq {rules : List ArgRule} {toks : List String} {l : List ParsedArg}
    (h : bindArgs rules toks = .ok l) :
    l = (rules.zip toks).map fun p => ⟨p.1.name, p.2⟩ := by
  induction rules generalizing toks l with
  | nil => simp only [bindArgs, Except.ok.injEq] at h; simp [← h]
  | cons r rs ih =>
    cases toks with
    | nil =>
      by_cases hr : r.required = true
      · simp [bindArgs, hr] at h
      · simp only [bindArgs, if_neg hr] at h
        simpa using ih h
    | cons t ts =>
      simp only [bindArgs] at h
      cases hb : bindArgs rs ts with
      | error e => rw [hb] at h; exact absurd h (by simp)
      | ok rest =>
        rw [hb] at h
        simp only [Except.ok.injEq] at h
        simp [← h, ih hb]

theorem bindArgs_take (rules : List ArgRule) (toks : List String) :
    bindArgs rules toks = bindArgs rules (toks.take rules.length) := by
  induction rules generalizing toks with
  | nil => simp [bindArgs]
  | cons r rs ih =>
    cases toks with
    | nil => simp
    | cons t ts => simp only [bindArgs, List.length_cons, List.take_succ_cons, ih ts]

theorem bindArgs_allOptional {rules : List ArgRule} (h : ∀ r ∈ rules, r.required = false)
    (toks : List String) : ∃ l, bindArgs rules toks = .ok l := by
  induction rules generalizing toks with
  | nil => exact ⟨[], rfl⟩
  | cons r rs ih =>
    cases toks with
    | nil =>
      have hr : r.required = false := h r (by simp)
      simpa [bindArgs, hr] using ih (fun x hx => h x (by simp [hx])) []
    | cons t ts =>
      obtain ⟨l, hl⟩ := ih (fun x hx => h x (by simp [hx])) ts
      exact ⟨⟨r.name, t⟩ :: l, by simp [bindArgs, hl]⟩

theorem bindArgs_error_of_firstUnfillable {rules : List ArgRule} {toks : List String} {nm : String}
    (h : firstUnfillable rules toks.length = some nm) :
    bindArgs rules toks = .error (.RequiredArgMissing nm) := by
  induction rules generalizing toks with
  | nil => simp [firstUnfillable] at h
  | cons r rs ih =>
    cases toks with
    | nil =>
      simp only [List.length_nil, firstUnfillable] at h
      by_cases hr : r.required = true
      · rw [if_pos hr] at h
        simp only [Option.some.injEq] at h
        simp [bindArgs, hr, ← h]
      · rw [if_neg hr] at h
        have := @ih ([] : List String) h
        simp only [Bool.not_eq_true] at hr
        simpa [bindArgs, hr] using this
    | cons t ts =>
      simp only [List.length_cons, firstUnfillable] at h
      simp [bindArgs, @ih ts h]

theorem le_length_takeWhile (p : String → Bool) (l : List String) (n : Nat)
    (hn : n ≤ l.length) (h : ∀ t ∈ l.take n, p t = true) :
    n ≤ (l.takeWhile p).length := by
  induction l generalizing n with
  | nil => simpa using hn
  | cons a l ih =>
    cases n with
    | zero => exact Nat.zero_le _
    | succ n =>
      have ha : p a = true := h a (by simp)
      rw [List.takeWhile_cons_of_pos ha]
      simp only [List.length_cons, Nat.succ_le_succ_iff] at hn ⊢
      exact ih n hn fun t ht => h t (by simp [ht])



theorem parseFrom_mk_eq (nm : String) (fl : List String) (rules : List ArgRule)
    (subs : List Command) (ts : List String) :
    parseFrom (.mk nm fl rules subs) ts =
      match parseSubs subs (stripName nm ts) none with
      | .error e => .error e
      | .ok m =>
        match bindArgs rules ((stripName nm ts).dropWhile fun t => fl.contains t) with
        | .error e => .error e
        | .ok l =>
            .ok (.mk nm ((stripName nm ts).takeWhile fun t => fl.contains t) l m) := rfl

theorem parseSubs_nil_eq (args : List String) (acc : Option (String × ParsedCommand)) :
    parseSubs [] args acc = .ok acc := rfl

theorem parseSubs_cons_nil_eq (sc : Command) (rest : List Command)
    (acc : Option (String × ParsedCommand)) :
    parseSubs (sc :: rest) [] acc = parseSubs rest [] acc := rfl

theorem parseSubs_cons_cons_eq (sc : Command) (rest : List Command) (t : String)
    (ts : List String) (acc : Option (String × ParsedCommand)) :
    parseSubs (sc :: rest) (t :: ts) acc =
      if t = sc.name then
        match parseFrom sc ts with
        | .error e => .error e
        | .ok r => parseSubs rest (t :: ts) (some (sc.name, r))
      else parseSubs rest (t :: ts) acc := rfl

theorem matching_nil (args : List String) : matching [] args = [] := rfl

theorem matching_cons_of_pos {sc : Command} {args : List String}
    (h : args.head? = some sc.name) (rest : List Command) :
    matching (sc :: rest) args = sc :: matching rest args := by
  simp [matching, List.filter_cons, h]

theorem matching_cons_of_neg {sc : Command} {args : List String}
    (h : args.head? ≠ some sc.name) (rest : List Command) :
    matching (sc :: rest) args = matching rest args := by
  simp [matching, List.filter_cons, h]

theorem parseSubs_no_match {subs : List Command} {args : List String}
    (h : ∀ sc ∈ subs, args.head? ≠ some sc.name) (acc : Option (String × ParsedCommand)) :
    parseSubs subs args acc = .ok acc := by
  induction subs generalizing acc with
  | nil => rfl
  | cons sc rest ih =>
    cases args with
    | nil => exact (parseSubs_cons_nil_eq sc rest acc).trans (ih (fun x hx => by simp) acc)
    | cons t ts =>
      have ht : ¬ (t = sc.name) := fun he => h sc (by simp) (by simp [he])
      rw [parseSubs_cons_cons_eq, if_neg ht]
      exact ih (fun x hx => h x (by simp [hx])) acc

theorem parseSubs_ok_last {subs : List Command} {args : List String}
    {acc m : Option (String × ParsedCommand)}
    (h : parseSubs subs args acc = .ok m) :
    (matching subs args = [] ∧ m = acc) ∨
    (∃ sc r, (matching subs args).getLast? = some sc ∧
      parseFrom sc args.tail = .ok r ∧ m = some (sc.name, r)) := by
  induction subs generalizing acc m with
  | nil =>
    rw [parseSubs_nil_eq] at h
    simp only [Except.ok.injEq] at h
    exact Or.inl ⟨matching_nil args, h.symm⟩
  | cons sc rest ih =>
    cases args with
    | nil =>
      rw [parseSubs_cons_nil_eq] at h
      rw [matching_cons_of_neg (by simp)]
      exact ih h
    | cons t ts =>
      rw [parseSubs_cons_cons_eq] at h
      by_cases ht : t = sc.name
      · rw [if_pos ht] at h
        cases hp : parseFrom sc ts with
        | error e => rw [hp] at h; exact absurd h (by simp)
        | ok r =>
          rw [hp] at h
          rw [matching_cons_of_pos (by simp [ht])]
          rcases ih h with ⟨hm, he⟩ | ⟨sc', r', hlast, hp', he⟩
          · rw [hm]
            exact Or.inr ⟨sc, r, rfl, hp, he⟩
          · refine Or.inr ⟨sc', r', ?_, hp', he⟩
            cases hmt : matching rest (t :: ts) with
            | nil => rw [hmt] at hlast; simp at hlast
            | cons b l => rw [hmt] at hlast; rw [List.getLast?_cons_cons, hlast]
      · rw [if_neg ht] at h
        rw [matching_cons_of_neg (by simp [ht])]
        exact ih h

theorem parseSubs_error_of_find {subs : List Command} {args : List String} {sc : Command}
    {e : Error}
    (hfind : (subs.find? fun x => args.head? == some x.name) = some sc)
    (herr : parseFrom sc args.tail = .error e) (acc : Option (String × ParsedCommand)) :
    parseSubs subs args acc = .error e := by
  induction subs generalizing acc with
  | nil => simp at hfind
  | cons x rest ih =>
    cases args with
    | nil =>
      rw [List.find?_cons_of_neg _ (by simp)] at hfind
      exact (parseSubs_cons_nil_eq x rest acc).trans (ih hfind acc)
    | cons t ts =>
      by_cases ht : t = x.name
      · rw [List.find?_cons_of_pos _ (by simp [ht])] at hfind
        simp only [Option.some.injEq] at hfind
        subst hfind
        rw [parseSubs_cons_cons_eq, if_pos ht]
        simp only [List.tail_cons] at herr
        rw [herr]
      · rw [List.find?_cons_of_neg _ (by simp [ht])] at hfind
        rw [parseSubs_cons_cons_eq, if_neg ht]
        exact ih hfind acc

theorem parseSubs_ok_mem {subs : List Command} {args : List String}
    {acc m : Option (String × ParsedCommand)}
    (h : parseSubs subs args acc = .ok m) :
    m = acc ∨ ∃ sc ∈ subs, ∃ r, m = some (sc.name, r) ∧ parseFrom sc args.tail = .ok r := by
  induction subs generalizing acc m with
  | nil =>
    rw [parseSubs_nil_eq] at h
    simp only [Except.ok.injEq] at h
    exact Or.inl h.symm
  | cons sc rest ih =>
    cases args with
    | nil =>
      rw [parseSubs_cons_nil_eq] at h
      rcases ih h with he | ⟨x, hx, r, he, hp⟩
      · exact Or.inl he
      · exact Or.inr ⟨x, by simp [hx], r, he, hp⟩
    | cons t ts =>
      rw [parseSubs_cons_cons_eq] at h
      by_cases ht : t = sc.name
      · rw [if_pos ht] at h
        cases hp : parseFrom sc ts with
        | error e => rw [hp] at h; exact absurd h (by simp)
        | ok r =>
          rw [hp] at h
          rcases ih h with he | ⟨x, hx, r', he, hp'⟩
          · exact Or.inr ⟨sc, by simp, r, he, by simpa using hp⟩
          · exact Or.inr ⟨x, by simp [hx], r', he, hp'⟩
      · rw [if_neg ht] at h
        rcases ih h with he | ⟨x, hx, r', he, hp'⟩
        · exact Or.inl he
        · exact Or.inr ⟨x, by simp [hx], r', he, hp'⟩

theorem parseSubs_ok_of_children {subs : List Command} {args : List String}
    (h : ∀ sc ∈ subs, ∀ ts, ∃ r, parseFrom sc ts = .ok r)
    (acc : Option (String × ParsedCommand)) :
    ∃ m, parseSubs subs args acc = .ok m := by
  induction subs generalizing acc with
  | nil => exact ⟨acc, rfl⟩
  | cons sc rest ih =>
    cases args with
    | nil =>
      obtain ⟨m, hm⟩ := ih (fun x hx us => h x (by simp [hx]) us) acc
      exact ⟨m, (parseSubs_cons_nil_eq sc rest acc).trans hm⟩
    | cons t ts =>
      by_cases ht : t = sc.name
      · obtain ⟨r, hr⟩ := h sc (by simp) ts
        obtain ⟨m, hm⟩ := ih (fun x hx us => h x (by simp [hx]) us) (some (sc.name, r))
        refine ⟨m, ?_⟩
        rw [parseSubs_cons_cons_eq, if_pos ht, hr]
        exact hm
      · obtain ⟨m, hm⟩ := ih (fun x hx us => h x (by simp [hx]) us) acc
        refine ⟨m, ?_⟩
        rw [parseSubs_cons_cons_eq, if_neg ht]
        exact hm

theorem allOptionalList_mem {subs : List Command} (h : allOptionalList subs = true) :
    ∀ sc ∈ subs, allOptional sc = true := by
  induction subs with
  | nil => simp
  | cons sc rest ih =>
    rw [show allOptionalList (sc :: rest) = (allOptional sc && allOptionalList rest) from rfl,
      Bool.and_eq_true] at h
    intro x hx
    rcases List.mem_cons.mp hx with he | hm
    · exact he ▸ h.1
    · exact ih h.2 x hm


theorem sizeOf_mem_subcommands {sc : Command} {subs : List Command} (h : sc ∈ subs)
    (nm : String) (fl : List String) (rules : List ArgRule) :
    sizeOf sc < sizeOf (Command.mk nm fl rules subs) := by
  have h1 : sizeOf sc < sizeOf subs := List.sizeOf_lt_of_mem h
  have h2 : sizeOf (Command.mk nm fl rules subs) = 1 + sizeOf nm + sizeOf fl + sizeOf rules + sizeOf subs := by
    simp [Command.mk.sizeOf_spec]
  omega

theorem parseFrom_ok_of_allOptional {c : Command} (hc : allOptional c = true)
    (ts : List String) : ∃ r, parseFrom c ts = .ok r := by
  have key : ∀ (n : Nat) (c : Command), sizeOf c ≤ n → allOptional c = true →
      ∀ us, ∃ r, parseFrom c us = .ok r := by
    intro n
    induction n with
    | zero =>
      intro c hsz
      cases c with
      | mk nm fl rules subs =>
        rw [show sizeOf (Command.mk nm fl rules subs) = 1 + sizeOf nm + sizeOf fl + sizeOf rules + sizeOf subs by simp [Command.mk.sizeOf_spec]] at hsz
        omega
    | succ n ih =>
      intro c hsz hopt us
      cases c with
      | mk nm fl rules subs =>
        rw [show allOptional (Command.mk nm fl rules subs) =
            ((rules.all fun r => !r.required) && allOptionalList subs) from rfl,
          Bool.and_eq_true] at hopt
        obtain ⟨hrules, hsubs⟩ := hopt
        have hchild : ∀ sc ∈ subs, ∀ vs, ∃ r, parseFrom sc vs = .ok r := by
          intro sc hm vs
          have h1 := sizeOf_mem_subcommands hm nm fl rules
          exact ih sc (by omega) (allOptionalList_mem hsubs sc hm) vs
        obtain ⟨m, hm⟩ := @parseSubs_ok_of_children subs (stripName nm us) hchild none
        have hopt2 : ∀ r ∈ rules, r.required = false := by
          intro r hr
          simpa using List.all_eq_true.mp hrules r hr
        obtain ⟨l, hl⟩ := bindArgs_allOptional hopt2
          ((stripName nm us).dropWhile fun t => fl.contains t)
        refine ⟨.mk nm ((stripName nm us).takeWhile fun t => fl.contains t) l m, ?_⟩
        rw [parseFrom_mk_eq, hm, hl]
  exact key (sizeOf c) c (Nat.le_refl _) hc ts

theorem resultInv_mk_none (c : Command) (cn : String) (fl : List String)
    (pargs : List ParsedArg) :
    ResultInv c (.mk cn fl pargs none) =
      ((fl.all fun t => c.flags.contains t) &&
       (decide (pargs.length ≤ c.args.length)) && true) := rfl

theorem resultInv_mk_some (c : Command) (cn : String) (fl : List String)
    (pargs : List ParsedArg) (nm : String) (child : ParsedCommand) :
    ResultInv c (.mk cn fl pargs (some (nm, child))) =
      ((fl.all fun t => c.flags.contains t) &&
       (decide (pargs.length ≤ c.args.length)) &&
       (c.subcommands.any fun sc => sc.name == nm && ResultInv sc child)) := rfl

theorem resultInv_of_parseFrom {c : Command} {ts : List String} {r : ParsedCommand}
    (h : parseFrom c ts = .ok r) : ResultInv c r = true := by
  have key : ∀ (n : Nat) (c : Command), sizeOf c ≤ n → ∀ us r, parseFrom c us = .ok r →
      ResultInv c r = true := by
    intro n
    induction n with
    | zero =>
      intro c hsz
      cases c with
      | mk nm fl rules subs =>
        rw [show sizeOf (Command.mk nm fl rules subs) = 1 + sizeOf nm + sizeOf fl + sizeOf rules + sizeOf subs by simp [Command.mk.sizeOf_spec]] at hsz
        omega
    | succ n ih =>
      intro c hsz us r h
      obtain ⟨m, l, hm, hl, hr⟩ := parseFrom_ok_parts h
      subst hr
      cases c with
      | mk nm fl rules subs =>
        simp only [Command.name, Command.flags, Command.args, Command.subcommands] at hm hl ⊢
        have hall : ((stripName nm us).takeWhile fun t => fl.contains t).all
            (fun t => fl.contains t) = true :=
          List.all_eq_true.mpr fun t ht => List.mem_takeWhile_imp ht
        have hlen : decide (l.length ≤ rules.length) = true := by
          have := bindArgs_ok_eq hl
          subst this
          simp only [decide_eq_true_eq, List.length_map, List.length_zip]
          omega
        rcases parseSubs_ok_mem hm with he | ⟨sc, hmem, cr, he, hp⟩
        · subst he
          rw [resultInv_mk_none]
          simp only [Command.flags, Command.args]
          rw [hall, hlen]
          rfl
        · subst he
          rw [resultInv_mk_some]
          simp only [Command.flags, Command.args, Command.subcommands]
          rw [hall, hlen]
          have hany : (subs.any fun sc2 => sc2.name == sc.name && ResultInv sc2 cr) = true := by
            refine List.any_eq_true.mpr ⟨sc, hmem, ?_⟩
            have hinv := ih sc (by have := sizeOf_mem_subcommands hmem nm fl rules; omega) _ _ hp
            simp [hinv]
          rw [hany]
          rfl
  exact key (sizeOf c) c (Nat.le_refl _) ts r h


theorem splitChars_length (sep : Char) (cs : List Char) :
    (splitChars sep cs).length = cs.count sep + 1 := by
  induction cs with
  | nil => rfl
  | cons c cs ih =>
    by_cases hc : c = sep
    · simp [splitChars, hc, List.count_cons, ih]
    · cases hsp : splitChars sep cs with
      | nil => rw [hsp] at ih; simp at ih
      | cons g gs =>
        rw [hsp] at ih
        simp only [splitChars, if_neg hc, hsp, List.length_cons, List.count_cons] at ih ⊢
        have : (c == sep) = false := by simp [hc]
        rw [this]
        simp only [Bool.false_eq_true, if_false]
        omega

/-- C1 counterexample: the schema `C1cexCmd` has a required rule `a` and a child
`sub`; on the tokens `["sub"]` the subcommand matches, so after
matched-subcommand removal zero positional tokens remain and the claim demands
a `RequiredArgMissing "a"` failure — but the parse succeeds, binding the
subcommand-name token `"sub"` to the parent rule `a`. -/
theorem parseFrom_subcommandTokens_still_bound_cex :
    parseFrom C1cexCmd ["sub"] =
      .ok (.mk "r" [] [⟨"a", "sub"⟩] (some ("sub", .mk "sub" [] [] none))) := rfl

/-- C1 (amended): provided the subcommand pass itself succeeds, `parse_from`
fails with `RequiredArgMissing` naming the first required rule left without a
token, where the tokens available for positional binding are those remaining
after command-name stripping and flag-prefix removal only — tokens of a
matched subcommand are NOT removed and are also bound at the parent level. -/
theorem parseFrom_requiredArgMissing_firstShortfall (c : Command) (ts : List String)
    (nm : String)
    (hsub : ∃ m, parseSubs c.subcommands (stripName c.name ts) none = .ok m)
    (hmiss : firstUnfillable c.args
      ((stripName c.name ts).dropWhile fun t => c.flags.contains t).length = some nm) :
    parseFrom c ts = .error (.RequiredArgMissing nm) := by
  obtain ⟨m, hm⟩ := hsub
  rw [parseFrom_eq, hm, bindArgs_error_of_firstUnfillable hmiss]

/-- Witness for the amended C1 theorem at the schema `C1wCmd` and empty input. -/
theorem parseFrom_requiredArgMissing_firstShortfall_witness :
    parseFrom C1wCmd [] = .error (.RequiredArgMissing "a") :=
  parseFrom_requiredArgMissing_firstShortfall C1wCmd [] "a" ⟨none, rfl⟩ rfl

/-- C2 counterexample: `C2cexCmd` declares two children both named `s`; on
tokens `["s", "t"]` the recorded subcommand result is the empty-args result of
the LAST matching child, while the first child `C2cexChild` would have bound
`t` to its rule `x` — so the first child in declaration order is not the one
recorded. -/
theorem parseFrom_duplicate_children_last_wins_cex :
    parseFrom C2cexCmd ["s", "t"] = .ok (.mk "r" [] [] (some ("s", .mk "s" [] [] none))) ∧
    parseFrom C2cexChild ["t"] = .ok (.mk "s" [] [⟨"x", "t"⟩] none) := ⟨rfl, rfl⟩

/-- C2 (amended): at most one subcommand match is recorded (the result holds a
single optional match), and when one or more children's names equal the next
remaining token the recorded parse result is that of the LAST matching child
in declaration order. -/
theorem parseFrom_lastMatching_subcommand_recorded (c : Command) (ts : List String)
    (r : ParsedCommand) (h : parseFrom c ts = .ok r) :
    (matching c.subcommands (stripName c.name ts) = [] ∧ r.subcommandMatch = none) ∨
    (∃ sc cr, (matching c.subcommands (stripName c.name ts)).getLast? = some sc ∧
      parseFrom sc (stripName c.name ts).tail = .ok cr ∧
      r.subcommandMatch = some (sc.name, cr)) := by
  obtain ⟨m, l, hm, hl, hr⟩ := parseFrom_ok_parts h
  subst hr
  rcases parseSubs_ok_last hm with ⟨hmat, he⟩ | ⟨sc, cr, hlast, hp, he⟩
  · exact Or.inl ⟨hmat, by simp [ParsedCommand.subcommandMatch, he]⟩
  · exact Or.inr ⟨sc, cr, hlast, hp, by simp [ParsedCommand.subcommandMatch, he]⟩

/-- Witness for the amended C2 theorem at the schema `C2wCmd`. -/
theorem parseFrom_lastMatching_subcommand_recorded_witness :
    (matching C2wCmd.subcommands (stripName C2wCmd.name ["go", "z"]) = [] ∧
      (ParsedCommand.mk "root" [] []
        (some ("go", .mk "go" [] [⟨"v", "z"⟩] none))).subcommandMatch = none) ∨
    (∃ sc cr, (matching C2wCmd.subcommands (stripName C2wCmd.name ["go", "z"])).getLast? = some sc ∧
      parseFrom sc (stripName C2wCmd.name ["go", "z"]).tail = .ok cr ∧
      (ParsedCommand.mk "root" [] []
        (some ("go", .mk "go" [] [⟨"v", "z"⟩] none))).subcommandMatch = some (sc.name, cr)) :=
  parseFrom_lastMatching_subcommand_recorded C2wCmd ["go", "z"]
    (.mk "root" [] [] (some ("go", .mk "go" [] [⟨"v", "z"⟩] none))) rfl

/-- C3: on success the recorded flag set is exactly the longest contiguous
leading run of remaining tokens that are declared flags — every recorded flag
is declared, and any prefix of remaining tokens made of declared flags is no
longer than the recorded run — and the tokens after that run (including any
declared flag token occurring after the first non-flag token) are exactly the
ones handed to ordinary positional binding. -/
theorem parseFrom_flag_run_longest (c : Command) (ts : List String) (r : ParsedCommand)
    (h : parseFrom c ts = .ok r) :
    (∃ rest, stripName c.name ts = r.flags ++ rest ∧ bindArgs c.args rest = .ok r.args) ∧
    (∀ t ∈ r.flags, c.flags.contains t = true) ∧
    (∀ n, n ≤ (stripName c.name ts).length →
      (∀ t ∈ (stripName c.name ts).take n, c.flags.contains t = true) →
      n ≤ r.flags.length) := by
  obtain ⟨m, l, hm, hl, hr⟩ := parseFrom_ok_parts h
  subst hr
  simp only [ParsedCommand.flags, ParsedCommand.args]
  refine ⟨⟨(stripName c.name ts).dropWhile fun t => c.flags.contains t,
    (List.takeWhile_append_dropWhile _ _).symm, hl⟩,
    fun t ht => List.mem_takeWhile_imp ht,
    fun n hn hall => le_length_takeWhile _ _ n hn hall⟩

/-- Witness for the C3 theorem at the source's smoke-test schema and input. -/
theorem parseFrom_flag_run_longest_witness :
    (∃ rest, stripName C3wCmd.name ["/hello", "-foo", "-spam", "bar", "-foo", "baz"] =
        (ParsedCommand.mk "/hello" ["-foo"]
          [⟨"one", "-spam"⟩, ⟨"two", "bar"⟩, ⟨"three", "-foo"⟩, ⟨"four", "baz"⟩] none).flags ++ rest ∧
      bindArgs C3wCmd.args rest = .ok (ParsedCommand.mk "/hello" ["-foo"]
          [⟨"one", "-spam"⟩, ⟨"two", "bar"⟩, ⟨"three", "-foo"⟩, ⟨"four", "baz"⟩] none).args) ∧
    (∀ t ∈ (ParsedCommand.mk "/hello" ["-foo"]
        [⟨"one", "-spam"⟩, ⟨"two", "bar"⟩, ⟨"three", "-foo"⟩, ⟨"four", "baz"⟩] none).flags,
      C3wCmd.flags.contains t = true) ∧
    (∀ n, n ≤ (stripName C3wCmd.name ["/hello", "-foo", "-spam", "bar", "-foo", "baz"]).length →
      (∀ t ∈ (stripName C3wCmd.name ["/hello", "-foo", "-spam", "bar", "-foo", "baz"]).take n,
        C3wCmd.flags.contains t = true) →
      n ≤ (ParsedCommand.mk "/hello" ["-foo"]
        [⟨"one", "-spam"⟩, ⟨"two", "bar"⟩, ⟨"three", "-foo"⟩, ⟨"four", "baz"⟩] none).flags.length) :=
  parseFrom_flag_run_longest C3wCmd ["/hello", "-foo", "-spam", "bar", "-foo", "baz"]
    (.mk "/hello" ["-foo"]
      [⟨"one", "-spam"⟩, ⟨"two", "bar"⟩, ⟨"three", "-foo"⟩, ⟨"four", "baz"⟩] none) rfl

/-- C4: when the first child whose name equals the next remaining token exists
and its recursive parse fails, the parent's `parse_from` returns that same
error — it is not swallowed, no sibling is retried, and no `ParsedCommand` is
produced. -/
theorem parseFrom_subcommand_error_propagates (c : Command) (ts : List String)
    (sc : Command) (e : Error)
    (hfind : (c.subcommands.find? fun x => (stripName c.name ts).head? == some x.name) = some sc)
    (herr : parseFrom sc (stripName c.name ts).tail = .error e) :
    parseFrom c ts = .error e := by
  rw [parseFrom_eq, parseSubs_error_of_find hfind herr none]

/-- Witness for the C4 theorem: the child `s` of `C4wCmd` fails on empty
remaining input and the parent returns the child's error. -/
theorem parseFrom_subcommand_error_propagates_witness :
    parseFrom C4wCmd ["s"] = .error (.RequiredArgMissing "x") :=
  parseFrom_subcommand_error_propagates C4wCmd ["s"] ((Command.new "s").arg "x" true)
    (.RequiredArgMissing "x") rfl rfl

/-- C5 counterexample: for the schema `C5cexCmd` named `n` with required rule
`a`, prepending the name to the token list `["n"]` does NOT yield the same
result as parsing `["n"]` directly — the former succeeds and the latter fails,
because stripping happens at most once. -/
theorem parseFrom_name_strip_repeated_cex :
    parseFrom C5cexCmd ["n", "n"] = .ok (.mk "n" [] [⟨"a", "n"⟩] none) ∧
    parseFrom C5cexCmd ["n"] = .error (.RequiredArgMissing "a") := ⟨rfl, rfl⟩

/-- C5 (amended): root-name stripping is presence-independent for every token
list that does not itself begin with the schema's name: prepending the name
then gives the same parse result as omitting it. -/
theorem parseFrom_name_strip_presence (c : Command) (ts : List String)
    (h : ts.head? ≠ some c.name) :
    parseFrom c (c.name :: ts) = parseFrom c ts := by
  have h1 : stripName c.name (c.name :: ts) = ts := by simp [stripName]
  have h2 : stripName c.name ts = ts := by
    cases ts with
    | nil => rfl
    | cons t ts2 =>
      have ht : ¬ (t = c.name) := fun he => h (by simp [he])
      simp [stripName, ht]
  rw [parseFrom_eq, parseFrom_eq, h1, h2]

/-- Witness for the amended C5 theorem at the schema `C5cexCmd` and a token
list not beginning with the name `n`. -/
theorem parseFrom_name_strip_presence_witness :
    parseFrom C5cexCmd ["n", "z"] = parseFrom C5cexCmd ["z"] :=
  parseFrom_name_strip_presence C5cexCmd ["z"] (by decide)

/-- C6: for every schema tree whose rules are all optional at every depth,
`parse_from` succeeds on every token sequence including the empty one; and
`RequiredArgMissing` is the only error kind the parser can ever return, for
any schema at all. -/
theorem parseFrom_allOptional_total (c : Command) (h : allOptional c = true) :
    (∀ ts, ∃ r, parseFrom c ts = .ok r) ∧
    (∀ (d : Command) (us : List String) (e : Error), parseFrom d us = .error e →
      ∃ nm, e = .RequiredArgMissing nm) := by
  refine ⟨fun ts => parseFrom_ok_of_allOptional h ts, fun d us e _ => ?_⟩
  cases e with
  | RequiredArgMissing nm => exact ⟨nm, rfl⟩

/-- Witness for the C6 theorem at the all-optional schema `C6wCmd`. -/
theorem parseFrom_allOptional_total_witness :
    ∃ r, parseFrom C6wCmd [] = .ok r :=
  (parseFrom_allOptional_total C6wCmd rfl).1 []

/-- C7: on success the bound positional args are exactly the declared rules
zipped in order against the post-flag tokens — an optional rule with no token
contributes no entry — so their number never exceeds the declared rule count;
and binding only ever consumes as many tokens as there are rules, so surplus
tokens are silently dropped and can cause no error. -/
theorem parseFrom_positional_binding_bounded (c : Command) (ts : List String)
    (r : ParsedCommand) (h : parseFrom c ts = .ok r) :
    r.args = ((c.args.zip ((stripName c.name ts).dropWhile fun t => c.flags.contains t)).map
      fun p => ⟨p.1.name, p.2⟩) ∧
    r.args.length ≤ c.args.length ∧
    (∀ (rules : List ArgRule) (toks : List String),
      bindArgs rules toks = bindArgs rules (toks.take rules.length)) := by
  obtain ⟨m, l, hm, hl, hr⟩ := parseFrom_ok_parts h
  subst hr
  simp only [ParsedCommand.args]
  have he := bindArgs_ok_eq hl
  refine ⟨he, ?_, bindArgs_take⟩
  subst he
  simp only [List.length_map, List.length_zip]
  omega

/-- Witness for the C7 theorem: one declared rule, two tokens — the surplus
token is dropped. -/
theorem parseFrom_positional_binding_bounded_witness :
    (ParsedCommand.mk "h" [] [⟨"p", "u"⟩] none).args =
      ((C7wCmd.args.zip ((stripName C7wCmd.name ["u", "v"]).dropWhile
        fun t => C7wCmd.flags.contains t)).map fun p => ⟨p.1.name, p.2⟩) ∧
    (ParsedCommand.mk "h" [] [⟨"p", "u"⟩] none).args.length ≤ C7wCmd.args.length ∧
    (∀ (rules : List ArgRule) (toks : List String),
      bindArgs rules toks = bindArgs rules (toks.take rules.length)) :=
  parseFrom_positional_binding_bounded C7wCmd ["u", "v"]
    (.mk "h" [] [⟨"p", "u"⟩] none) rfl

/-- C8 counterexample: when the schema `C8cexCmd` declares the empty string as
a flag, the empty token produced by a leading space IS recorded as a flag
rather than bound positionally — so empty-string tokens can equal a declared
flag. -/
theorem parse_empty_string_flag_cex :
    parse C8cexCmd " z" = .ok (.mk "x" [""] [⟨"a", "z"⟩] none) ∧
    (ParsedCommand.mk "x" [""] [⟨"a", "z"⟩] none).hasFlag "" = true := ⟨rfl, rfl⟩

/-- C8 (amended): `parse` splits its input on single space characters (so `n`
spaces produce `n + 1` tokens and consecutive spaces produce empty-string
tokens, bound as empty positional values, as the concrete instance shows);
an empty token is recorded as a flag only when the schema declares the empty
string as a flag — for schemas that do not, the parsed flag set never
contains the empty string. -/
theorem parse_space_split_tokens :
    (∀ (c : Command) (input : String),
      parse c input = parseFrom c ((splitChars ' ' input.toList).map fun g => String.mk g)) ∧
    (∀ (s : String), (splitChars ' ' s.toList).length = s.toList.count ' ' + 1) ∧
    (∀ (c : Command) (ts : List String) (r : ParsedCommand),
      c.flags.contains "" = false → parseFrom c ts = .ok r → r.hasFlag "" = false) ∧
    parse C8wCmd "a  b" = .ok (.mk "y" [] [⟨"p", "a"⟩, ⟨"q", ""⟩, ⟨"w", "b"⟩] none) := by
  refine ⟨fun c input => rfl, fun s => splitChars_length ' ' s.toList, ?_, rfl⟩
  intro c ts r hf h
  obtain ⟨m, l, hm, hl, hr⟩ := parseFrom_ok_parts h
  subst hr
  simp only [ParsedCommand.hasFlag, ParsedCommand.flags]
  by_contra hc
  rw [Bool.not_eq_false] at hc
  have hmem : "" ∈ (stripName c.name ts).takeWhile fun t => c.flags.contains t := by
    simpa using hc
  have := List.mem_takeWhile_imp hmem
  rw [hf] at this
  exact Bool.false_ne_true this

/-- Witness for the amended C8 theorem: the no-empty-flag conjunct applied to
a schema with no flags at all. -/
theorem parse_space_split_tokens_witness :
    (ParsedCommand.mk "w" [] [] none).hasFlag "" = false :=
  parse_space_split_tokens.2.2.1 (Command.new "w") [""] (.mk "w" [] [] none) rfl rfl

/-- C9 counterexample: the schema `C9cexCmd` has a non-empty name and a
required first rule, yet `parse("")` fails — the single empty token satisfies
the first required rule but the second required rule is left without a token. -/
theorem parse_empty_input_two_required_cex :
    parse C9cexCmd "" = .error (.RequiredArgMissing "b") := rfl

/-- C9 (amended): a required rule is satisfied by any available token,
including the empty string: for a schema whose name is non-empty, which does
not declare the empty string as a flag, none of whose children is named by the
empty string, and whose rules are a required first rule followed only by
optional ones, `parse("")` succeeds binding the empty string as the first
rule's value (the empty input yields one empty-string token, which counts as
a positional token). -/
theorem parse_empty_input_binds_required (c : Command) (nm : String) (rest : List ArgRule)
    (hname : c.name ≠ "")
    (hflag : c.flags.contains "" = false)
    (hsubs : ∀ sc ∈ c.subcommands, sc.name ≠ "")
    (hargs : c.args = ⟨nm, true⟩ :: rest)
    (hrest : ∀ a ∈ rest, a.required = false) :
    parse c "" = .ok (.mk c.name [] [⟨nm, ""⟩] none) := by
  have hstep : parse c "" = parseFrom c [""] := rfl
  rw [hstep, parseFrom_eq]
  have hstrip : stripName c.name [""] = [""] := by
    have : ¬ ("" = c.name) := fun he => hname he.symm
    simp [stripName, this]
  rw [hstrip]
  rw [parseSubs_no_match (fun sc hsc he => hsubs sc hsc (by
    simp only [List.head?_cons, Option.some.injEq] at he
    exact he.symm)) none]
  have hdrop : List.dropWhile (fun t => c.flags.contains t) [""] = [""] := by
    rw [List.dropWhile_cons, hflag]
    simp
  have htake : List.takeWhile (fun t => c.flags.contains t) [""] = [] := by
    rw [List.takeWhile_cons, hflag]
    simp
  obtain ⟨l2, hl2⟩ := bindArgs_allOptional hrest ([] : List String)
  have hl2e : l2 = [] := by simpa using bindArgs_ok_eq hl2
  subst hl2e
  have hbind : bindArgs (⟨nm, true⟩ :: rest) [""] = .ok [⟨nm, ""⟩] := by
    show (match bindArgs rest [] with
      | .error e => .error e
      | .ok r2 => .ok (⟨nm, ""⟩ :: r2)) = Except.ok [(⟨nm, ""⟩ : ParsedArg)]
    rw [hl2]
  rw [hdrop, hargs, hbind, htake]

/-- Witness for the amended C9 theorem at the schema `C9wCmd`. -/
theorem parse_empty_input_binds_required_witness :
    parse C9wCmd "" = .ok (.mk "/x" [] [⟨"a", ""⟩] none) :=
  parse_empty_input_binds_required C9wCmd "a" [⟨"b", false⟩] (by decide) rfl
    (by simp [C9wCmd, Command.new, Command.arg, Command.subcommands]) rfl
    (by simp)

/-- C10: every successful parse result satisfies the structural invariant
`ResultInv` against its schema: the recorded flags are all declared flags, the
number of bound positionals is at most the number of declared rules, and any
recorded subcommand result satisfies the same invariant recursively against a
child schema bearing the recorded name. -/
theorem parseFrom_result_invariant (c : Command) (ts : List String) (r : ParsedCommand)
    (h : parseFrom c ts = .ok r) : ResultInv c r = true :=
  resultInv_of_parseFrom h

/-- Witness for the C10 theorem at a schema with a flagged subcommand. -/
theorem parseFrom_result_invariant_witness :
    ResultInv C10wCmd (.mk "p" [] [] (some ("c", .mk "c" ["-f"] [] none))) = true :=
  parseFrom_result_invariant C10wCmd ["c", "-f"]
    (.mk "p" [] [] (some ("c", .mk "c" ["-f"] [] none))) rfl

end Weechat
